import Mathlib

/-!
Shallow embedding of `src/sysdrv/drv_ko/bhe-enclave/bhe-enclave.c`.

The driver code consists of:
* `uart_receive_buf` — appends incoming bytes to a staging buffer
  (`rx_buffer`/`rx_buffer_pos`), then runs a deframing loop that scans for the
  packet signature, extracts complete frames and dispatches them (state-update
  frames mutate `root_state`/`version`; all other frames are copied byte by
  byte into the circular `uart_buffer` ring).
* `uart_misc_read` — drains the ring into the caller's buffer, blocking on an
  empty ring.
* `uart_misc_write` — copies the caller's buffer and forwards it to the serial
  transport.

Bytes are modelled as `Nat` (wire bytes are < 256; well-formedness hypotheses
state this where a claim needs it).  The buffers are modelled as `List Nat`,
the ring's backing array as a function `Nat → Nat` indexed modulo `BUF_SIZE`.
-/

namespace BheEnclave

/-- Constant `PACKET_SIGNATURE` from the source (`0xBADF00D`). -/
def PACKET_SIGNATURE : Nat := 0xBADF00D

/-- Constant `BUF_SIZE` (capacity of the outbound ring `uart_buffer`). -/
def BUF_SIZE : Nat := 2048

/-- Constant `RX_BUFFER_SIZE` (capacity of the staging buffer `rx_buffer`). -/
def RX_BUFFER_SIZE : Nat := 2048

/-- Constant `HEADER_SIZE` (signature 4 + type 2 + length 2). -/
def HEADER_SIZE : Nat := 8

/-- Little-endian 32-bit read of the first four bytes of `l`
(`le32_to_cpu(*(uint32_t *)rx_buffer)` in the source). -/
def le32 (l : List Nat) : Nat :=
  l.getD 0 0 + 256 * l.getD 1 0 + 65536 * l.getD 2 0 + 16777216 * l.getD 3 0

/-- Little-endian 16-bit read at byte offset `n`
(`le16_to_cpu(*(uint16_t *)(rx_buffer + n))` in the source). -/
def le16at (l : List Nat) (n : Nat) : Nat :=
  l.getD n 0 + 256 * l.getD (n + 1) 0

/-- The outbound ring: `uart_buffer`, `buffer_head` (write cursor) and
`buffer_tail` (read cursor) from the source. -/
structure RingBuf where
  buf : Nat → Nat
  head : Nat
  tail : Nat

/-- Initial ring state (`buffer_head = buffer_tail = 0`, zeroed storage). -/
def ring0 : RingBuf := ⟨fun _ => 0, 0, 0⟩

/-- One producer step of `uart_receive_buf`'s enqueue loop (source lines
117–122): write `b` at `head`, advance `head`, and if `head` caught up with
`tail`, advance `tail` (drop the oldest byte). -/
def enq (r : RingBuf) (b : Nat) : RingBuf :=
  let buf' := fun j => if j = r.head then b else r.buf j
  let head' := (r.head + 1) % BUF_SIZE
  if head' = r.tail then ⟨buf', head', (r.tail + 1) % BUF_SIZE⟩
  else ⟨buf', head', r.tail⟩

/-- The whole enqueue loop: one `enq` per byte, in order. -/
def enqList (r : RingBuf) (l : List Nat) : RingBuf := l.foldl enq r

/-- Number of unread bytes stored in the ring. -/
def ringSize (r : RingBuf) : Nat := (r.head + BUF_SIZE - r.tail) % BUF_SIZE

/-- The unread bytes of the ring, oldest first. -/
def ringContents (r : RingBuf) : List Nat :=
  (List.range (ringSize r)).map (fun i => r.buf ((r.tail + i) % BUF_SIZE))

/-- Ring well-formedness: both cursors lie below `BUF_SIZE`. -/
def RingInv (r : RingBuf) : Prop := r.head < BUF_SIZE ∧ r.tail < BUF_SIZE

/-- The copy loop of `uart_misc_read` (source lines 145–152): while the ring
is non-empty and fewer than `count` bytes have been copied, emit
`uart_buffer[buffer_tail]` and advance `tail`.  The fuel argument is exactly
the caller's `count` bound, so this is the source loop verbatim. -/
def drain (r : RingBuf) : Nat → List Nat × RingBuf
  | 0 => ([], r)
  | n + 1 =>
    if r.head = r.tail then ([], r)
    else
      let b := r.buf r.tail
      let p := drain { r with tail := (r.tail + 1) % BUF_SIZE } n
      (b :: p.1, p.2)

/-- Possible outcomes of `uart_misc_read`.  `interrupted` is in the interface
taxonomy (a distinct result for a signal-interrupted blocking read) so that
theorems can state whether the driver ever produces it. -/
inductive ReadResult where
  | eagain
  | interrupted
  | ok (bytes : List Nat)

/-- Model of `uart_misc_read` (source lines 135–156).  `nonblock` is
`file->f_flags & O_NONBLOCK`.  If the ring is empty and the read is blocking,
the source calls `wait_event_interruptible` and DISCARDS its return value, so
execution falls through to the copy loop no matter how the wait ended; `intr`
(whether the wait was ended by a signal) therefore has no influence on the
result.  `rAfterWait` is the ring state observed once the wait returns (equal
to `r`, still empty, when the wait was interrupted before any producer ran).
`put_user` is modelled as succeeding (valid caller buffer). -/
def uart_misc_read (nonblock intr : Bool) (r rAfterWait : RingBuf) (count : Nat) :
    ReadResult × RingBuf :=
  if r.head = r.tail then
    if nonblock then (.eagain, r)
    else
      let p := drain rAfterWait count
      (.ok p.1, p.2)
  else
    let p := drain r count
    (.ok p.1, p.2)

/-- Model of `uart_misc_write` (source lines 158–185).  `allocOk` models the
`kmalloc` outcome for writes larger than the 128-byte stack buffer, `copyOk`
the `copy_from_user` outcome; `send` is `serdev_device_write_buf`, applied
once to the full caller buffer, returning bytes accepted or a negative error.
The source returns `ret < 0 ? ret : count`. -/
def uart_misc_write (allocOk copyOk : Bool) (send : List Nat → Int) (data : List Nat) : Int :=
  if data.length = 0 then 0
  else if 128 < data.length ∧ allocOk = false then -12
  else if copyOk = false then -14
  else
    let ret := send data
    if ret < 0 then ret else (data.length : Int)

/-- Full receive-path state: staging buffer `rx_buffer[0..rx_buffer_pos)` as a
list, the state mirror `root_state`/`version`, the outbound ring, and a ghost
trace `dispatched` recording each `(packet_type, payload)` pair handed to the
dispatch branch (source lines 103–126) in order. -/
structure St where
  rx : List Nat
  root_state : Nat
  version : Nat
  ring : RingBuf
  dispatched : List (Nat × List Nat)

/-- Module-load state: empty buffers, zeroed mirror. -/
def initSt : St := ⟨[], 0, 0, ring0, []⟩

/-- The deframing `while` loop of `uart_receive_buf` (source lines 86–130).
Each iteration removes at least one byte from the staging buffer, so the
buffer length at entry bounds the iteration count; the fuel argument makes
the recursion structural and is instantiated with exactly that bound in
`processLoop`. -/
def processLoopF : Nat → St → St
  | 0, s => s
  | fuel + 1, s =>
    if HEADER_SIZE ≤ s.rx.length then
      if le32 s.rx = PACKET_SIGNATURE then
        let ty := le16at s.rx 4
        let len := le16at s.rx 6
        if s.rx.length < HEADER_SIZE + len then s
        else
          let payload := (s.rx.drop HEADER_SIZE).take len
          let s' :=
            if ty = 0x0004 then
              if 2 ≤ len then
                { s with root_state := payload.getD 0 0, version := payload.getD 1 0,
                         dispatched := s.dispatched ++ [(ty, payload)] }
              else
                { s with dispatched := s.dispatched ++ [(ty, payload)] }
            else
              { s with ring := enqList s.ring (s.rx.take (HEADER_SIZE + len)),
                       dispatched := s.dispatched ++ [(ty, payload)] }
          processLoopF fuel { s' with rx := s.rx.drop (HEADER_SIZE + len) }
      else
        processLoopF fuel { s with rx := s.rx.tail }
    else s

/-- The deframing loop, entered with the staging-buffer length as fuel. -/
def processLoop (s : St) : St := processLoopF s.rx.length s

/-- Result of one `uart_receive_buf` call: next state, the C return value,
and whether the `"Receive buffer overflow"` error path was taken. -/
structure FeedResult where
  st : St
  ret : Nat
  overflow : Bool

/-- Model of `uart_receive_buf` (source lines 65–133): reject empty input,
reset the staging buffer and report an error when appending would exceed
`RX_BUFFER_SIZE`, otherwise append the chunk and run the deframing loop. -/
def uart_receive_buf (s : St) (data : List Nat) : FeedResult :=
  if data.length = 0 then ⟨s, 0, false⟩
  else if RX_BUFFER_SIZE < s.rx.length + data.length then ⟨{ s with rx := [] }, 0, true⟩
  else ⟨processLoop { s with rx := s.rx ++ data }, data.length, false⟩

/-- A sequence of `uart_receive_buf` calls; the Bool records whether any call
took the overflow path. -/
def feedAll : St → List (List Nat) → St × Bool
  | s, [] => (s, false)
  | s, c :: cs =>
    let r := uart_receive_buf s c
    let rest := feedAll r.st cs
    (rest.1, r.overflow || rest.2)

/-- Value shown by the read-only sysfs attribute `root_state` (source
`root_state_show`). -/
def root_state_show (s : St) : Nat := s.root_state

/-- Value shown by the read-only sysfs attribute `version` (source
`version_show`). -/
def version_show (s : St) : Nat := s.version

/-- The four signature bytes as they appear on the wire (little-endian
encoding of `0xBADF00D`). -/
def sigBytes : List Nat := [0x0D, 0xF0, 0xAD, 0x0B]

/-- Little-endian 16-bit encoding of `v`. -/
def enc16 (v : Nat) : List Nat := [v % 256, v / 256 % 256]

/-- A wire frame, described by its type selector and payload. -/
structure Frame where
  ty : Nat
  payload : List Nat

/-- The byte serialization of a frame: signature, type, length, payload. -/
def frameBytes (f : Frame) : List Nat :=
  sigBytes ++ enc16 f.ty ++ enc16 f.payload.length ++ f.payload

/-- A frame is well formed when its type and length fit in 16 bits and its
payload consists of bytes. -/
def WFframe (f : Frame) : Prop :=
  f.ty < 65536 ∧ f.payload.length < 65536 ∧ ∀ b ∈ f.payload, b < 256

instance decidableWFframe (f : Frame) : Decidable (WFframe f) :=
  inferInstanceAs (Decidable (_ ∧ _ ∧ _))

/-- Concatenated serialization of a list of frames. -/
def streamBytes (F : List Frame) : List Nat := (F.map frameBytes).flatten

/-- Effect of dispatching one complete frame, as performed inline by the loop
(source lines 103–126): the pair is traced; a state-update frame (type
`0x0004`) with payload length ≥ 2 overwrites the mirror, a shorter one is
discarded; any other type is enqueued whole (header + payload) into the
ring. -/
def dispatchFrame (s : St) (f : Frame) : St :=
  if f.ty = 0x0004 then
    if 2 ≤ f.payload.length then
      { s with root_state := f.payload.getD 0 0, version := f.payload.getD 1 0,
               dispatched := s.dispatched ++ [(f.ty, f.payload)] }
    else
      { s with dispatched := s.dispatched ++ [(f.ty, f.payload)] }
  else
    { s with ring := enqList s.ring (frameBytes f),
             dispatched := s.dispatched ++ [(f.ty, f.payload)] }

/-- Number of leading frames of `F` whose serializations fit wholly within
the first `k` stream bytes. -/
def nCovered : List Frame → Nat → Nat
  | [], _ => 0
  | f :: F, k =>
    if (frameBytes f).length ≤ k then nCovered F (k - (frameBytes f).length) + 1 else 0

/-- The bytes of the length-`k` stream prefix left over after removing the
wholly covered leading frames. -/
def leftoverBytes : List Frame → Nat → List Nat
  | [], _ => []
  | f :: F, k =>
    if (frameBytes f).length ≤ k then leftoverBytes F (k - (frameBytes f).length)
    else (frameBytes f).take k

/-! ### Byte-level helper lemmas -/

theorem getD_take (l : List Nat) (k i d : Nat) (h : i < k) :
    (l.take k).getD i d = l.getD i d := by
  simp [List.getD_eq_getElem?_getD, List.getElem?_take, h]

theorem frameBytes_length (f : Frame) : (frameBytes f).length = 8 + f.payload.length := by
  simp [frameBytes, sigBytes, enc16]
  omega

theorem le32_frame (f : Frame) (r : List Nat) :
    le32 (frameBytes f ++ r) = PACKET_SIGNATURE := by
  show (0x0D : Nat) + 256 * 0xF0 + 65536 * 0xAD + 16777216 * 0x0B = PACKET_SIGNATURE
  decide

theorem le16at_frame_ty (f : Frame) (r : List Nat) (h : f.ty < 65536) :
    le16at (frameBytes f ++ r) 4 = f.ty := by
  show f.ty % 256 + 256 * (f.ty / 256 % 256) = f.ty
  omega

theorem le16at_frame_len (f : Frame) (r : List Nat) (h : f.payload.length < 65536) :
    le16at (frameBytes f ++ r) 6 = f.payload.length := by
  show f.payload.length % 256 + 256 * (f.payload.length / 256 % 256) = f.payload.length
  omega

theorem frame_drop8 (f : Frame) (r : List Nat) :
    (frameBytes f ++ r).drop 8 = f.payload ++ r := by
  show f.payload ++ r = f.payload ++ r
  rfl

theorem frame_payload_extract (f : Frame) (r : List Nat) :
    ((frameBytes f ++ r).drop 8).take f.payload.length = f.payload := by
  rw [frame_drop8, List.take_left]

theorem frame_take_whole (f : Frame) (r : List Nat) :
    (frameBytes f ++ r).take (8 + f.payload.length) = frameBytes f := by
  rw [← frameBytes_length, List.take_left]

theorem frame_drop_whole (f : Frame) (r : List Nat) :
    (frameBytes f ++ r).drop (8 + f.payload.length) = r := by
  rw [← frameBytes_length, List.drop_left]

theorem le32_take (l : List Nat) (k : Nat) (h : 4 ≤ k) : le32 (l.take k) = le32 l := by
  unfold le32
  rw [getD_take _ _ _ _ (by omega), getD_take _ _ _ _ (by omega),
    getD_take _ _ _ _ (by omega), getD_take _ _ _ _ (by omega)]

theorem le16at_take (l : List Nat) (k n : Nat) (h : n + 2 ≤ k) :
    le16at (l.take k) n = le16at l n := by
  unfold le16at
  rw [getD_take _ _ _ _ (by omega), getD_take _ _ _ _ (by omega)]

/-! ### Deframing-loop unfolding lemmas

`processLoopF` consumes at least one staging byte per iteration, so any fuel
at least the staging length computes the loop's true fixpoint. -/

theorem processLoopF_congr :
    ∀ (n : Nat), ∀ (m : Nat) (s : St), s.rx.length ≤ n → s.rx.length ≤ m →
      processLoopF n s = processLoopF m s := by
  intro n
  induction n using Nat.strong_induction_on with
  | _ n ih =>
    intro m s hn hm
    match n, m with
    | 0, m =>
      have h0 : s.rx.length = 0 := Nat.le_zero.mp hn
      cases m with
      | zero => rfl
      | succ m =>
        simp only [processLoopF]
        rw [if_neg (by simp [HEADER_SIZE]; omega)]
    | n + 1, 0 =>
      have h0 : s.rx.length = 0 := Nat.le_zero.mp hm
      simp only [processLoopF]
      rw [if_neg (by simp [HEADER_SIZE]; omega)]
    | n + 1, m + 1 =>
      simp only [processLoopF]
      by_cases hhd : HEADER_SIZE ≤ s.rx.length
      · rw [if_pos hhd, if_pos hhd]
        by_cases hsig : le32 s.rx = PACKET_SIGNATURE
        · rw [if_pos hsig, if_pos hsig]
          by_cases hlen : s.rx.length < HEADER_SIZE + le16at s.rx 6
          · rw [if_pos hlen, if_pos hlen]
          · rw [if_neg hlen, if_neg hlen]
            apply ih n (Nat.lt_succ_self n) m
            · simp only [List.length_drop]
              simp only [HEADER_SIZE] at hhd ⊢
              omega
            · simp only [List.length_drop]
              simp only [HEADER_SIZE] at hhd ⊢
              omega
        · rw [if_neg hsig, if_neg hsig]
          apply ih n (Nat.lt_succ_self n) m
          · simp only [List.length_tail]
            omega
          · simp only [List.length_tail]
            simp only [HEADER_SIZE] at hhd
            omega
      · rw [if_neg hhd, if_neg hhd]

theorem processLoop_stop (s : St) (h : s.rx.length < HEADER_SIZE) : processLoop s = s := by
  unfold processLoop
  cases hl : s.rx.length with
  | zero => rfl
  | succ n =>
    simp only [processLoopF]
    rw [if_neg (by omega)]

theorem processLoop_wait (s : St) (h8 : HEADER_SIZE ≤ s.rx.length)
    (hsig : le32 s.rx = PACKET_SIGNATURE)
    (hlen : s.rx.length < HEADER_SIZE + le16at s.rx 6) : processLoop s = s := by
  unfold processLoop
  obtain ⟨n, hn⟩ : ∃ n, s.rx.length = n + 1 := by
    simp [HEADER_SIZE] at h8; exact ⟨s.rx.length - 1, by omega⟩
  rw [hn]
  simp only [processLoopF]
  rw [if_pos (hn ▸ h8), if_pos hsig, if_pos (hn ▸ hlen)]

theorem processLoop_discard (s : St) (h8 : HEADER_SIZE ≤ s.rx.length)
    (hsig : le32 s.rx ≠ PACKET_SIGNATURE) :
    processLoop s = processLoop { s with rx := s.rx.tail } := by
  unfold processLoop
  obtain ⟨n, hn⟩ : ∃ n, s.rx.length = n + 1 := by
    simp [HEADER_SIZE] at h8; exact ⟨s.rx.length - 1, by omega⟩
  rw [hn]
  simp only [processLoopF]
  rw [if_pos (hn ▸ h8), if_neg hsig]
  exact processLoopF_congr n _ _ (by simp [List.length_tail]; omega) (Nat.le_refl _)

theorem dispatchFrame_rx (s : St) (f : Frame) : (dispatchFrame s f).rx = s.rx := by
  unfold dispatchFrame
  split
  · split <;> rfl
  · rfl

/-- Extracting one complete well-formed frame at the staging buffer's front:
one loop iteration dispatches it and continues on the remaining bytes. -/
theorem processLoop_frame (s : St) (f : Frame) (rest : List Nat)
    (hwf : WFframe f) (hrx : s.rx = frameBytes f ++ rest) :
    processLoop s = processLoop { dispatchFrame s f with rx := rest } := by
  obtain ⟨hty, hplen, hbytes⟩ := hwf
  have hL : s.rx.length = (7 + f.payload.length + rest.length) + 1 := by
    rw [hrx, List.length_append, frameBytes_length]
    omega
  conv_lhs => unfold processLoop
  rw [hL]
  simp only [processLoopF]
  rw [hrx]
  rw [if_pos (by rw [List.length_append, frameBytes_length]; simp [HEADER_SIZE]; omega)]
  rw [if_pos (le32_frame f rest)]
  rw [le16at_frame_ty f rest hty, le16at_frame_len f rest hplen]
  rw [if_neg (by rw [List.length_append, frameBytes_length]; simp only [HEADER_SIZE]; omega)]
  simp only [HEADER_SIZE]
  rw [frame_payload_extract, frame_take_whole, frame_drop_whole]
  conv_rhs => unfold processLoop
  simp only [dispatchFrame]
  split_ifs <;>
    exact processLoopF_congr _ _ _ (by simp) (Nat.le_refl _)

theorem dispatchFrame_setRx (s : St) (x : List Nat) (f : Frame) :
    dispatchFrame { s with rx := x } f = { dispatchFrame s f with rx := x } := by
  cases s
  by_cases h1 : f.ty = 0x0004
  · by_cases h2 : 2 ≤ f.payload.length
    · simp only [dispatchFrame, if_pos h1, if_pos h2]
    · simp only [dispatchFrame, if_pos h1, if_neg h2]
  · simp only [dispatchFrame, if_neg h1]

theorem dispatchFrame_dispatched (s : St) (f : Frame) :
    (dispatchFrame s f).dispatched = s.dispatched ++ [(f.ty, f.payload)] := by
  unfold dispatchFrame
  split_ifs <;> rfl

theorem le32_append_left (l r : List Nat) (h : 4 ≤ l.length) :
    le32 (l ++ r) = le32 l := by
  unfold le32
  rw [List.getD_append _ _ _ _ (by omega), List.getD_append _ _ _ _ (by omega),
    List.getD_append _ _ _ _ (by omega), List.getD_append _ _ _ _ (by omega)]

/-- Resynchronization: garbage bytes in front of a well-formed frame (the
garbage containing the signature at no alignment) are discarded one by one,
after which the frame is dispatched and the staging buffer is left empty. -/
theorem processLoop_garbage (g : List Nat) :
    ∀ (s : St) (f : Frame), WFframe f →
      (∀ i, i + 4 ≤ g.length → le32 (g.drop i) ≠ PACKET_SIGNATURE) →
      s.rx = g ++ frameBytes f →
      processLoop s = { dispatchFrame s f with rx := [] } := by
  induction g with
  | nil =>
    intro s f hwf hg hrx
    rw [processLoop_frame s f [] hwf (by simpa using hrx)]
    exact processLoop_stop _ (by simp [HEADER_SIZE])
  | cons b g' ih =>
    intro s f hwf hg hrx
    have h8 : HEADER_SIZE ≤ s.rx.length := by
      rw [hrx]
      simp only [HEADER_SIZE, List.length_cons, List.length_append, frameBytes_length]
      omega
    have hsig : le32 s.rx ≠ PACKET_SIGNATURE := by
      rw [hrx]
      rcases g' with _ | ⟨a1, g2⟩
      · show b + 256 * 13 + 65536 * 240 + 16777216 * 173 ≠ 195948557
        omega
      rcases g2 with _ | ⟨a2, g3⟩
      · show b + 256 * a1 + 65536 * 13 + 16777216 * 240 ≠ 195948557
        omega
      rcases g3 with _ | ⟨a3, g4⟩
      · show b + 256 * a1 + 65536 * a2 + 16777216 * 13 ≠ 195948557
        omega
      · rw [le32_append_left _ _ (by simp)]
        exact hg 0 (by simp)
    rw [processLoop_discard s h8 hsig]
    have htail : ({ s with rx := s.rx.tail } : St).rx = g' ++ frameBytes f := by
      rw [hrx]
      rfl
    rw [ih _ f hwf (fun i hi => by
        have := hg (i + 1) (by simp at hi ⊢; omega)
        simpa using this) htail]
    rw [dispatchFrame_setRx]

theorem le32_frameBytes (f : Frame) : le32 (frameBytes f) = PACKET_SIGNATURE := by
  have := le32_frame f []
  simpa using this

theorem le16at_frameBytes_len (f : Frame) (h : f.payload.length < 65536) :
    le16at (frameBytes f) 6 = f.payload.length := by
  have := le16at_frame_len f [] h
  simpa using this

theorem streamBytes_cons (f : Frame) (F : List Frame) :
    streamBytes (f :: F) = frameBytes f ++ streamBytes F := by
  simp [streamBytes]

theorem foldl_dispatchFrame_setRx (G : List Frame) :
    ∀ (s : St) (x : List Nat),
      List.foldl dispatchFrame { s with rx := x } G =
        { List.foldl dispatchFrame s G with rx := x } := by
  induction G with
  | nil => intro s x; rfl
  | cons f G' ih =>
    intro s x
    simp only [List.foldl_cons]
    rw [dispatchFrame_setRx, ih]

theorem foldl_dispatchFrame_dispatched (G : List Frame) :
    ∀ s : St, (List.foldl dispatchFrame s G).dispatched =
      s.dispatched ++ G.map (fun f => (f.ty, f.payload)) := by
  induction G with
  | nil => intro s; simp
  | cons f G' ih =>
    intro s
    simp only [List.foldl_cons, List.map_cons]
    rw [ih, dispatchFrame_dispatched, List.append_assoc]
    rfl

/-- A staging buffer holding a prefix of a well-formed frame stream resolves
exactly the wholly contained frames, in order, and retains the remainder. -/
theorem processLoop_streamTake (F : List Frame) :
    ∀ (k : Nat) (s : St), (∀ f ∈ F, WFframe f) → k ≤ (streamBytes F).length →
      s.rx = (streamBytes F).take k →
      processLoop s =
        { List.foldl dispatchFrame s (F.take (nCovered F k)) with
          rx := leftoverBytes F k } := by
  induction F with
  | nil =>
    intro k s _ hk hrx
    obtain ⟨rx0, rs0, v0, rg0, d0⟩ := s
    have hk0 : k = 0 := by simpa [streamBytes] using hk
    subst hk0
    simp only [streamBytes, List.map_nil, List.flatten_nil, List.take_nil] at hrx
    subst hrx
    rw [processLoop_stop _ (by simp [HEADER_SIZE])]
    simp [nCovered, leftoverBytes]
  | cons f F' ih =>
    intro k s hwf hk hrx
    by_cases hcov : (frameBytes f).length ≤ k
    · have htake : (streamBytes (f :: F')).take k =
          frameBytes f ++ (streamBytes F').take (k - (frameBytes f).length) := by
        rw [streamBytes_cons, List.take_append_eq_append_take, List.take_of_length_le hcov]
      rw [processLoop_frame s f _ (hwf f (by simp)) (by rw [hrx, htake])]
      rw [ih (k - (frameBytes f).length) _ (fun f' hf' => hwf f' (by simp [hf']))
        (by rw [streamBytes_cons, List.length_append] at hk; omega) rfl]
      rw [foldl_dispatchFrame_setRx]
      simp only [nCovered, if_pos hcov, leftoverBytes, List.take_succ_cons, List.foldl_cons]
    · have hk' : k ≤ (frameBytes f).length := by omega
      have hrx' : s.rx = (frameBytes f).take k := by
        rw [hrx, streamBytes_cons, List.take_append_eq_append_take,
          Nat.sub_eq_zero_of_le hk', List.take_zero, List.append_nil]
      have hlen : s.rx.length = k := by
        rw [hrx', List.length_take]
        omega
      have hstop : processLoop s = s := by
        by_cases h8 : k < 8
        · exact processLoop_stop s (by rw [hlen]; simpa [HEADER_SIZE] using h8)
        · push_neg at h8
          have hplen : f.payload.length < 65536 := (hwf f (by simp)).2.1
          apply processLoop_wait s (by rw [hlen]; simpa [HEADER_SIZE] using h8)
          · rw [hrx', le32_take _ _ (by omega), le32_frameBytes]
          · rw [hrx', le16at_take _ _ _ (by omega), le16at_frameBytes_len f hplen,
              List.length_take]
            have := frameBytes_length f
            simp only [HEADER_SIZE]
            omega
      rw [hstop]
      simp only [nCovered, if_neg hcov, leftoverBytes, List.take_zero, List.foldl_nil]
      obtain ⟨rx0, rs0, v0, rg0, d0⟩ := s
      simp only at hrx'
      subst hrx'
      rfl

theorem leftover_append_drop (F : List Frame) :
    ∀ k, leftoverBytes F k ++ (streamBytes F).drop k =
      streamBytes (F.drop (nCovered F k)) := by
  induction F with
  | nil => intro k; simp [leftoverBytes, streamBytes]
  | cons f F' ih =>
    intro k
    by_cases hcov : (frameBytes f).length ≤ k
    · simp only [leftoverBytes, if_pos hcov, nCovered, streamBytes_cons,
        List.drop_append_eq_append_drop, List.drop_eq_nil_of_le hcov, List.nil_append,
        List.drop_succ_cons]
      exact ih (k - (frameBytes f).length)
    · have hk' : k ≤ (frameBytes f).length := by omega
      simp only [leftoverBytes, if_neg hcov, nCovered, streamBytes_cons,
        List.drop_append_eq_append_drop, Nat.sub_eq_zero_of_le hk', List.drop_zero]
      rw [← List.append_assoc, List.take_append_drop]

theorem leftover_short (F : List Frame) :
    ∀ (k : Nat) (f' : Frame) (F'' : List Frame),
      F.drop (nCovered F k) = f' :: F'' →
      (leftoverBytes F k).length < (frameBytes f').length := by
  induction F with
  | nil => intro k f' F'' h; simp [nCovered] at h
  | cons f F' ih =>
    intro k f' F'' h
    by_cases hcov : (frameBytes f).length ≤ k
    · simp only [nCovered, if_pos hcov, List.drop_succ_cons] at h
      simpa only [leftoverBytes, if_pos hcov] using ih _ _ _ h
    · simp only [nCovered, if_neg hcov, List.drop_zero] at h
      obtain ⟨h1, _⟩ := List.cons.inj h
      subst h1
      simp only [leftoverBytes, if_neg hcov, List.length_take]
      omega

theorem map_take_drop_pairs (F : List Frame) (n : Nat) :
    (F.take n).map (fun f => (f.ty, f.payload)) ++ (F.drop n).map (fun f => (f.ty, f.payload)) =
      F.map (fun f => (f.ty, f.payload)) := by
  rw [← List.map_append, List.take_append_drop]

/-- One chunked run of `uart_receive_buf` over the tail of a frame stream:
starting from a state whose staging buffer holds a partial frame (shorter
than the next frame), feeding the remaining stream bytes in any chunking
without overflow dispatches exactly the remaining frames and empties the
staging buffer. -/
theorem feedAll_aux (chunks : List (List Nat)) :
    ∀ (F : List Frame) (s : St), (∀ f ∈ F, WFframe f) →
      s.rx ++ chunks.flatten = streamBytes F →
      (∀ f' F'', F = f' :: F'' → s.rx.length < (frameBytes f').length) →
      (feedAll s chunks).2 = false →
      (feedAll s chunks).1.dispatched =
          s.dispatched ++ F.map (fun f => (f.ty, f.payload)) ∧
        (feedAll s chunks).1.rx = [] := by
  induction chunks with
  | nil =>
    intro F s hwf hjoin hshort _
    match F, hjoin with
    | [], hjoin =>
      have hrx : s.rx = [] := by simpa [streamBytes] using hjoin
      simp [feedAll, hrx]
    | f :: F'', hjoin =>
      exfalso
      have h1 := hshort f F'' rfl
      have h2 : s.rx = streamBytes (f :: F'') := by simpa using hjoin
      rw [h2, streamBytes_cons, List.length_append] at h1
      omega
  | cons c cs ih =>
    intro F s hwf hjoin hshort hov
    simp only [feedAll] at hov ⊢
    rw [Bool.or_eq_false_iff] at hov
    obtain ⟨hov1, hov2⟩ := hov
    by_cases hc0 : c.length = 0
    · have hc : c = [] := List.length_eq_zero.mp hc0
      subst hc
      simp only [uart_receive_buf, if_pos rfl]
      exact ih F s hwf (by simpa using hjoin) hshort hov2
    · have hnov : ¬ RX_BUFFER_SIZE < s.rx.length + c.length := by
        intro hlt
        simp only [uart_receive_buf, if_neg hc0, if_pos hlt] at hov1
        exact Bool.true_eq_false.mp hov1
      simp only [uart_receive_buf, if_neg hc0, if_neg hnov] at hov2 ⊢
      -- the appended buffer is a prefix of the remaining stream
      have hpref : s.rx ++ c = (streamBytes F).take (s.rx ++ c).length := by
        have : (s.rx ++ c) ++ cs.flatten = streamBytes F := by
          rw [List.append_assoc]
          simpa using hjoin
        rw [← this, List.take_left]
      have hklen : (s.rx ++ c).length ≤ (streamBytes F).length := by
        conv_rhs => rw [← hjoin]
        simp only [List.length_append, List.flatten_cons]
        omega
      rw [processLoop_streamTake F ((s.rx ++ c).length) _ hwf hklen hpref] at hov2 ⊢
      set k := (s.rx ++ c).length with hk
      set n := nCovered F k with hn
      have hdrop : (streamBytes F).drop k = cs.flatten := by
        have : (s.rx ++ c) ++ cs.flatten = streamBytes F := by
          rw [List.append_assoc]
          simpa using hjoin
        rw [← this, List.drop_left]
      have hrec := ih (F.drop n) _
        (fun f' hf' => hwf f' (List.mem_of_mem_drop hf'))
        (by
          show leftoverBytes F k ++ cs.flatten = streamBytes (F.drop n)
          rw [← hdrop, hn]
          exact leftover_append_drop F k)
        (fun f' F'' hF => by
          show (leftoverBytes F k).length < (frameBytes f').length
          exact leftover_short F k f' F'' (hn ▸ hF))
        hov2
      refine ⟨?_, hrec.2⟩
      rw [hrec.1]
      show ({ List.foldl dispatchFrame { s with rx := s.rx ++ c } (F.take n) with
        rx := leftoverBytes F k } : St).dispatched ++ _ = _
      rw [foldl_dispatchFrame_dispatched]
      show s.dispatched ++ _ ++ _ = _
      rw [List.append_assoc, map_take_drop_pairs]

/-! ### Outbound ring lemmas -/

theorem ringSize_le (r : RingBuf) : ringSize r ≤ BUF_SIZE - 1 := by
  simp only [ringSize, BUF_SIZE]
  omega

theorem length_ringContents (r : RingBuf) : (ringContents r).length = ringSize r := by
  simp [ringContents]

theorem RingInv_enq (r : RingBuf) (b : Nat) (h : RingInv r) : RingInv (enq r b) := by
  obtain ⟨h1, h2⟩ := h
  simp only [RingInv, enq, BUF_SIZE] at h1 h2 ⊢
  split <;> (dsimp only) <;> constructor <;> omega

theorem ringSize_enq (r : RingBuf) (b : Nat) (h : RingInv r) :
    ringSize (enq r b) = min (ringSize r + 1) (BUF_SIZE - 1) := by
  obtain ⟨h1, h2⟩ := h
  simp only [ringSize, enq, BUF_SIZE] at h1 h2 ⊢
  split <;> (dsimp only) <;> omega

theorem getElem_ringContents (r : RingBuf) (i : Nat) (hi : i < (ringContents r).length) :
    (ringContents r)[i] = r.buf ((r.tail + i) % BUF_SIZE) := by
  simp [ringContents]

theorem ringContents_enq (r : RingBuf) (b : Nat) (h : RingInv r) :
    ringContents (enq r b) =
      (if ringSize r = BUF_SIZE - 1 then (ringContents r).drop 1 else ringContents r)
        ++ [b] := by
  obtain ⟨h1, h2⟩ := h
  by_cases hfull : (r.head + 1) % BUF_SIZE = r.tail
  · have hsz : ringSize r = BUF_SIZE - 1 := by
      simp only [ringSize, BUF_SIZE] at *
      omega
    have hsz' : ringSize (enq r b) = BUF_SIZE - 1 := by
      simp only [ringSize, enq, BUF_SIZE] at *
      rw [if_pos hfull]
      dsimp only
      omega
    have henq : enq r b =
        ⟨fun j => if j = r.head then b else r.buf j, (r.head + 1) % BUF_SIZE,
          (r.tail + 1) % BUF_SIZE⟩ := by
      simp only [enq, if_pos hfull]
    rw [if_pos hsz]
    apply List.ext_getElem
    · simp only [length_ringContents, List.length_append, List.length_drop,
        length_ringContents, List.length_cons, List.length_nil, hsz, hsz']
      simp only [BUF_SIZE]
    · intro i hL hR
      rw [getElem_ringContents (enq r b) i hL, henq]
      dsimp only
      rw [length_ringContents, hsz'] at hL
      by_cases hi : i < ((ringContents r).drop 1).length
      · rw [List.getElem_append_left hi, List.getElem_drop _,
          getElem_ringContents r _ (by simp at hi ⊢; omega)]
        rw [List.length_drop, length_ringContents, hsz] at hi
        have hne : ((r.tail + 1) % BUF_SIZE + i) % BUF_SIZE ≠ r.head := by
          simp only [BUF_SIZE] at *
          omega
        rw [if_neg hne]
        congr 1
        simp only [BUF_SIZE] at *
        omega
      · rw [List.length_drop, length_ringContents, hsz] at hi
        simp only [BUF_SIZE] at hi hL
        have hieq : i = 2046 := by omega
        subst hieq
        rw [List.getElem_append_right (by simp [length_ringContents, hsz, BUF_SIZE])]
        have he : ((r.tail + 1) % BUF_SIZE + 2046) % BUF_SIZE = r.head := by
          simp only [BUF_SIZE] at *
          omega
        rw [he, if_pos rfl]
        simp [length_ringContents, hsz, BUF_SIZE]
  · have hsz : ringSize r < BUF_SIZE - 1 := by
      have := ringSize_le r
      simp only [ringSize, BUF_SIZE] at *
      omega
    have hsz' : ringSize (enq r b) = ringSize r + 1 := by
      simp only [ringSize, enq, BUF_SIZE] at *
      rw [if_neg hfull]
      dsimp only
      omega
    have henq : enq r b =
        ⟨fun j => if j = r.head then b else r.buf j, (r.head + 1) % BUF_SIZE, r.tail⟩ := by
      simp only [enq, if_neg hfull]
    rw [if_neg (by omega)]
    apply List.ext_getElem
    · simp only [length_ringContents, List.length_append, List.length_cons,
        List.length_nil, hsz']
    · intro i hL hR
      rw [getElem_ringContents (enq r b) i hL, henq]
      dsimp only
      rw [length_ringContents, hsz'] at hL
      by_cases hi : i < (ringContents r).length
      · rw [List.getElem_append_left hi, getElem_ringContents r _ hi]
        rw [length_ringContents] at hi
        have hne : (r.tail + i) % BUF_SIZE ≠ r.head := by
          simp only [ringSize, BUF_SIZE] at *
          omega
        rw [if_neg hne]
      · rw [length_ringContents] at hi
        have hieq : i = ringSize r := by omega
        subst hieq
        rw [List.getElem_append_right (by rw [length_ringContents])]
        have he : (r.tail + ringSize r) % BUF_SIZE = r.head := by
          simp only [ringSize, BUF_SIZE] at *
          omega
        rw [he, if_pos rfl]
        simp [length_ringContents]


theorem ringContents_empty_iff (r : RingBuf) (h : RingInv r) :
    r.head = r.tail ↔ ringContents r = [] := by
  obtain ⟨h1, h2⟩ := h
  rw [← List.length_eq_zero, length_ringContents]
  simp only [ringSize, BUF_SIZE] at *
  omega

theorem RingInv_enqList (l : List Nat) : ∀ r, RingInv r → RingInv (enqList r l) := by
  induction l with
  | nil => intro r h; exact h
  | cons b l' ih =>
    intro r h
    have step : enqList r (b :: l') = enqList (enq r b) l' := by simp [enqList]
    rw [step]
    exact ih (enq r b) (RingInv_enq r b h)

theorem drop_one_shift (c X : List Nat) (n : Nat) (hc : 1 ≤ c.length) :
    (c ++ X).drop (1 + n) = (c.drop 1 ++ X).drop n := by
  cases c with
  | nil => simp at hc
  | cons a c2 =>
    rw [Nat.add_comm]
    simp [List.drop_succ_cons]

/-- Cumulative effect of the enqueue loop: the ring retains exactly the last
`BUF_SIZE - 1` bytes of (previous contents ++ new bytes); everything older is
dropped, in order, from the front. -/
theorem ringContents_enqList (l : List Nat) :
    ∀ r, RingInv r →
      ringContents (enqList r l) =
        (ringContents r ++ l).drop ((ringContents r ++ l).length - (BUF_SIZE - 1)) := by
  induction l with
  | nil =>
    intro r h
    have hle : (ringContents r).length ≤ BUF_SIZE - 1 := by
      rw [length_ringContents]; exact ringSize_le r
    simp only [enqList, List.foldl_nil, List.append_nil]
    rw [Nat.sub_eq_zero_of_le hle, List.drop_zero]
  | cons b l' ih =>
    intro r h
    have step : enqList r (b :: l') = enqList (enq r b) l' := by simp [enqList]
    rw [step, ih (enq r b) (RingInv_enq r b h), ringContents_enq r b h]
    by_cases hfull : ringSize r = BUF_SIZE - 1
    · rw [if_pos hfull]
      have hc : (ringContents r).length = BUF_SIZE - 1 := by
        rw [length_ringContents, hfull]
      have hlen1 : ((ringContents r).drop 1 ++ [b] ++ l').length - (BUF_SIZE - 1)
          = l'.length := by
        simp only [List.length_append, List.length_drop, List.length_cons,
          List.length_nil, hc, BUF_SIZE]
        omega
      have hlen2 : (ringContents r ++ b :: l').length - (BUF_SIZE - 1) = 1 + l'.length := by
        simp only [List.length_append, List.length_cons, hc, BUF_SIZE]
        omega
      have hdr : (ringContents r ++ [b]).drop 1 = (ringContents r).drop 1 ++ [b] :=
        List.drop_append_of_le_length (by simp only [BUF_SIZE] at hc; omega)
      rw [hlen1, hlen2]
      conv_rhs => rw [List.append_cons (ringContents r) b l',
        drop_one_shift _ _ _ (by simp), hdr]
    · rw [if_neg hfull]
      rw [List.append_cons (ringContents r) b l']

theorem RingInv_advanceTail (r : RingBuf) (h : RingInv r) :
    RingInv { r with tail := (r.tail + 1) % BUF_SIZE } := by
  obtain ⟨h1, h2⟩ := h
  exact ⟨h1, Nat.mod_lt _ (by simp [BUF_SIZE])⟩

theorem ringContents_advanceTail (r : RingBuf) (h : RingInv r) (hne : ¬ r.head = r.tail) :
    ringContents r = r.buf r.tail ::
      ringContents { r with tail := (r.tail + 1) % BUF_SIZE } := by
  obtain ⟨h1, h2⟩ := h
  apply List.ext_getElem
  · simp only [length_ringContents, List.length_cons]
    simp only [ringSize, BUF_SIZE] at *
    omega
  · intro i hL hR
    rw [getElem_ringContents r i hL]
    cases i with
    | zero =>
      simp only [List.getElem_cons_zero]
      congr 1
      simp only [BUF_SIZE] at *
      omega
    | succ j =>
      simp only [List.getElem_cons_succ]
      rw [getElem_ringContents _ j (by
        simp only [length_ringContents, List.length_cons] at hR ⊢
        simp only [ringSize, BUF_SIZE] at *
        omega)]
      show r.buf ((r.tail + (j + 1)) % BUF_SIZE) = r.buf (((r.tail + 1) % BUF_SIZE + j) % BUF_SIZE)
      congr 1
      simp only [BUF_SIZE] at *
      omega

/-- The copy loop of `uart_misc_read` returns the oldest `count`-or-fewer
unread bytes, in FIFO order, and preserves the ring invariant. -/
theorem drain_spec (n : Nat) :
    ∀ r, RingInv r →
      (drain r n).1 = (ringContents r).take n ∧ RingInv (drain r n).2 := by
  induction n with
  | zero => intro r h; exact ⟨by simp [drain], h⟩
  | succ m ih =>
    intro r h
    by_cases hne : r.head = r.tail
    · have hempty : ringContents r = [] := (ringContents_empty_iff r h).mp hne
      constructor
      · simp [drain, if_pos hne, hempty]
      · simpa [drain, if_pos hne] using h
    · have hstep := ringContents_advanceTail r h hne
      have hinv' := RingInv_advanceTail r h
      obtain ⟨ih1, ih2⟩ := ih _ hinv'
      simp only [drain, if_neg hne]
      constructor
      · rw [hstep, List.take_succ_cons, ih1]
      · exact ih2

theorem dispatchFrame_root_state (s : St) (f : Frame) (hty : f.ty = 0x0004)
    (hlen : 2 ≤ f.payload.length) :
    (dispatchFrame s f).root_state = f.payload.getD 0 0 := by
  unfold dispatchFrame
  rw [if_pos hty, if_pos hlen]

theorem dispatchFrame_version (s : St) (f : Frame) (hty : f.ty = 0x0004)
    (hlen : 2 ≤ f.payload.length) :
    (dispatchFrame s f).version = f.payload.getD 1 0 := by
  unfold dispatchFrame
  rw [if_pos hty, if_pos hlen]

/-- Feeding exactly one well-formed frame into an empty staging buffer
dispatches it and leaves the staging buffer empty. -/
theorem feed_frame_from_empty (s : St) (f : Frame) (hwf : WFframe f)
    (hrx : s.rx = []) (hcap : (frameBytes f).length ≤ RX_BUFFER_SIZE) :
    uart_receive_buf s (frameBytes f) =
      ⟨{ dispatchFrame s f with rx := [] }, (frameBytes f).length, false⟩ := by
  have h0 : ¬ (frameBytes f).length = 0 := by
    rw [frameBytes_length]
    omega
  have hnov : ¬ RX_BUFFER_SIZE < s.rx.length + (frameBytes f).length := by
    rw [hrx]
    simpa using hcap
  simp only [uart_receive_buf, if_neg h0, if_neg hnov]
  rw [processLoop_garbage [] _ f hwf (fun i hi => absurd hi (by simp))
    (by rw [hrx])]
  rw [dispatchFrame_setRx]

/-- Claim C8: a feed call whose byte count added to the staged bytes would
exceed the 2048-byte staging capacity accepts none of the chunk (return value
0 instead of the byte count), resets the staging buffer to empty — dropping
any in-flight partial frame — leaves the mirror, ring and dispatch trace
untouched, and reports the overflow error. -/
theorem claim_C8_staging_overflow (s : St) (data : List Nat) (hne : data ≠ [])
    (hov : RX_BUFFER_SIZE < s.rx.length + data.length) :
    uart_receive_buf s data = ⟨{ s with rx := [] }, 0, true⟩ := by
  have h0 : ¬ data.length = 0 := by simpa using hne
  simp only [uart_receive_buf, if_neg h0, if_pos hov]

/-- Witness for C8 at a concrete input: feeding 2049 bytes into the empty
staging buffer overflows; the call returns 0, flags the error and leaves the
staging buffer empty. -/
theorem claim_C8_staging_overflow_witness :
    (List.replicate 2049 (1 : Nat) ≠ []) ∧
    (RX_BUFFER_SIZE < initSt.rx.length + (List.replicate 2049 (1 : Nat)).length) ∧
    uart_receive_buf initSt (List.replicate 2049 1)
      = ⟨{ initSt with rx := [] }, 0, true⟩ := by
  have hne : List.replicate 2049 (1 : Nat) ≠ [] := by
    intro h
    have hlen := congrArg List.length h
    rw [List.length_replicate] at hlen
    simp at hlen
  have hov : RX_BUFFER_SIZE < initSt.rx.length + (List.replicate 2049 (1 : Nat)).length := by
    have h1 : initSt.rx.length = 0 := rfl
    rw [h1, List.length_replicate]
    decide
  exact ⟨hne, hov, claim_C8_staging_overflow initSt _ hne hov⟩

/-- Claim C10: each per-byte producer step (`enq`) and each consumer copy
loop (`drain`) preserves the ring invariant (cursors below `BUF_SIZE`); the
ring is empty exactly when `head = tail`; and the stored byte count never
exceeds `BUF_SIZE - 1` — one slot stays unused, so the effective capacity is
2047, as `ringSize (enq r b) = min (ringSize r + 1) (BUF_SIZE - 1)` shows. -/
theorem claim_C10_ring_invariant (r : RingBuf) (b : Nat) (n : Nat) (h : RingInv r) :
    RingInv (enq r b) ∧ RingInv (drain r n).2 ∧
    ringSize r ≤ BUF_SIZE - 1 ∧
    (r.head = r.tail ↔ ringContents r = []) ∧
    ringSize (enq r b) = min (ringSize r + 1) (BUF_SIZE - 1) :=
  ⟨RingInv_enq r b h, (drain_spec n r h).2, ringSize_le r,
    ringContents_empty_iff r h, ringSize_enq r b h⟩

/-- Witness for C10 at the initial ring with one enqueued byte and one
drain step. -/
theorem claim_C10_ring_invariant_witness :
    RingInv ring0 ∧
    (RingInv (enq ring0 5) ∧ RingInv (drain ring0 3).2 ∧
      ringSize ring0 ≤ BUF_SIZE - 1 ∧
      (ring0.head = ring0.tail ↔ ringContents ring0 = []) ∧
      ringSize (enq ring0 5) = min (ringSize ring0 + 1) (BUF_SIZE - 1)) :=
  ⟨⟨by decide, by decide⟩,
    claim_C10_ring_invariant ring0 5 3 ⟨by decide, by decide⟩⟩

/-- Claim C6 (evaluating the source's behaviour): the source discards the
return value of `wait_event_interruptible`, so a blocking read on an empty
ring that is interrupted while the ring stays empty falls through the copy
loop and returns success with zero bytes; no execution of `uart_misc_read`
ever produces the distinct `interrupted` result the claim requires. -/
theorem claim_C6_interrupted_read :
    (∀ (buf : Nat → Nat) (t count : Nat),
      uart_misc_read false true ⟨buf, t, t⟩ ⟨buf, t, t⟩ count
        = (.ok [], ⟨buf, t, t⟩)) ∧
    (∀ (nonblock intr : Bool) (r rw : RingBuf) (count : Nat),
      (uart_misc_read nonblock intr r rw count).1 ≠ .interrupted) := by
  constructor
  · intro buf t count
    have hdrain : drain ⟨buf, t, t⟩ count = ([], ⟨buf, t, t⟩) := by
      cases count <;> simp [drain]
    simp [uart_misc_read, hdrain]
  · intro nb intr r rw c
    unfold uart_misc_read
    split_ifs <;> simp

/-- Claim C5: a deframed state-update packet (type `0x0004`) whose payload is
shorter than 2 bytes is discarded whole — only the dispatch trace records it;
`root_state`, `version` and the outbound ring are untouched — and the loop
continues with the bytes that follow the frame; in particular, when nothing
follows, the final state differs from the initial one only in the consumed
staging bytes and the trace entry. -/
theorem claim_C5_short_state_update (s : St) (f : Frame) (rest : List Nat)
    (hwf : WFframe f) (hty : f.ty = 0x0004) (hshort : f.payload.length < 2)
    (hrx : s.rx = frameBytes f ++ rest) :
    processLoop s =
      processLoop { s with rx := rest,
                           dispatched := s.dispatched ++ [(f.ty, f.payload)] } ∧
    (rest = [] →
      processLoop s =
        { s with rx := [], dispatched := s.dispatched ++ [(f.ty, f.payload)] }) := by
  have hmain : processLoop s =
      processLoop { s with rx := rest,
                           dispatched := s.dispatched ++ [(f.ty, f.payload)] } := by
    rw [processLoop_frame s f rest hwf hrx]
    congr 1
    unfold dispatchFrame
    rw [if_pos hty, if_neg (by omega)]
  refine ⟨hmain, fun hrest => ?_⟩
  subst hrest
  rw [hmain]
  exact processLoop_stop _ (by simp [HEADER_SIZE])

/-- Witness for C5: a type-4 frame with a single payload byte is dropped;
the mirror starts and stays at (7, 9) and the ring is untouched. -/
theorem claim_C5_short_state_update_witness :
    WFframe ⟨4, [33]⟩ ∧ (4 : Nat) = 0x0004 ∧ ([33] : List Nat).length < 2 ∧
    (⟨frameBytes ⟨4, [33]⟩, 7, 9, ring0, []⟩ : St).rx = frameBytes ⟨4, [33]⟩ ++ [] ∧
    processLoop ⟨frameBytes ⟨4, [33]⟩, 7, 9, ring0, []⟩ =
      { (⟨frameBytes ⟨4, [33]⟩, 7, 9, ring0, []⟩ : St) with
          rx := [], dispatched := [] ++ [((4 : Nat), ([33] : List Nat))] } :=
  ⟨by decide, rfl, by decide, by simp,
    (claim_C5_short_state_update ⟨frameBytes ⟨4, [33]⟩, 7, 9, ring0, []⟩ ⟨4, [33]⟩ []
      (by decide) rfl (by decide) (by simp)).2 rfl⟩

/-- Claim C7 counterexample: with a 5-byte buffer and a transport that
accepts only 3 bytes (`serdev_device_write_buf` returns 3), the write returns
5 — the full requested count — not the 3 bytes the transport accepted, so
the claim "returns the number of bytes accepted by the transport" fails. -/
theorem claim_C7_counterexample :
    uart_misc_write true true (fun _ => 3) [1, 1, 1, 1, 1] = 5 ∧
    (fun _ => (3 : Int)) [1, 1, 1, 1, 1] = 3 ∧ ((5 : Int) ≠ 3) := by
  refine ⟨?_, rfl, by decide⟩
  decide

/-- Claim C7 as amended: for a non-empty buffer (with the copy into kernel
memory succeeding), the write invokes the transport once with the full
buffer; a negative transport return is forwarded unchanged, and any
non-negative transport return makes the write report the full caller byte
count (even if the transport accepted fewer bytes). -/
theorem claim_C7_amended (send : List Nat → Int) (data : List Nat) (h : data ≠ []) :
    (send data < 0 → uart_misc_write true true send data = send data) ∧
    (0 ≤ send data → uart_misc_write true true send data = data.length) := by
  have hne : ¬ data.length = 0 := by simpa using h
  have hna : ¬ (128 < data.length ∧ (true : Bool) = false) := by simp
  have hnc : ¬ ((true : Bool) = false) := by simp
  constructor
  · intro hneg
    simp only [uart_misc_write, if_neg hne, if_neg hna, if_neg hnc, if_pos hneg]
  · intro hpos
    simp only [uart_misc_write, if_neg hne, if_neg hna, if_neg hnc,
      if_neg (by omega : ¬ send data < 0)]

/-- Claim C2: whenever the staging buffer holds at least `HEADER_SIZE` bytes
whose first four little-endian bytes are not the magic signature, the
deframer discards exactly one byte from the front and rescans; consequently,
garbage bytes containing the signature at no alignment followed by one
well-formed frame (without overflowing the staging buffer) produce exactly
one dispatched `(type, payload)` pair, the staging buffer ends empty, and no
frame byte is skipped. -/
theorem claim_C2_resync :
    (∀ s : St, HEADER_SIZE ≤ s.rx.length → le32 s.rx ≠ PACKET_SIGNATURE →
      processLoop s = processLoop { s with rx := s.rx.tail }) ∧
    (∀ (g : List Nat) (f : Frame), WFframe f →
      (∀ i, i + 4 ≤ g.length → le32 (g.drop i) ≠ PACKET_SIGNATURE) →
      g.length + (frameBytes f).length ≤ RX_BUFFER_SIZE →
      (uart_receive_buf initSt (g ++ frameBytes f)).st.dispatched
          = [(f.ty, f.payload)] ∧
        (uart_receive_buf initSt (g ++ frameBytes f)).st.rx = [] ∧
        (uart_receive_buf initSt (g ++ frameBytes f)).overflow = false) := by
  constructor
  · exact fun s h8 hs => processLoop_discard s h8 hs
  · intro g f hwf hg hcap
    have h0 : ¬ (g ++ frameBytes f).length = 0 := by
      simp only [List.length_append, frameBytes_length]
      omega
    have hnov : ¬ RX_BUFFER_SIZE < initSt.rx.length + (g ++ frameBytes f).length := by
      show ¬ RX_BUFFER_SIZE < ([] : List Nat).length + (g ++ frameBytes f).length
      simp only [List.length_nil, List.length_append, Nat.zero_add]
      omega
    simp only [uart_receive_buf, if_neg h0, if_neg hnov]
    rw [processLoop_garbage g _ f hwf hg rfl]
    refine ⟨?_, by trivial, by trivial⟩
    show (dispatchFrame { initSt with rx := initSt.rx ++ (g ++ frameBytes f) } f).dispatched
      = [(f.ty, f.payload)]
    rw [dispatchFrame_dispatched]
    rfl

/-- Witness for C2: eight `9` bytes trigger a single-byte discard, and five
`5` garbage bytes in front of a type-7 frame yield exactly that one packet
with an empty staging buffer. -/
theorem claim_C2_resync_witness :
    (HEADER_SIZE ≤ (⟨[9, 9, 9, 9, 9, 9, 9, 9], 0, 0, ring0, []⟩ : St).rx.length) ∧
    (le32 (⟨[9, 9, 9, 9, 9, 9, 9, 9], 0, 0, ring0, []⟩ : St).rx ≠ PACKET_SIGNATURE) ∧
    (processLoop ⟨[9, 9, 9, 9, 9, 9, 9, 9], 0, 0, ring0, []⟩ =
      processLoop { (⟨[9, 9, 9, 9, 9, 9, 9, 9], 0, 0, ring0, []⟩ : St) with
                      rx := ([9, 9, 9, 9, 9, 9, 9, 9] : List Nat).tail }) ∧
    WFframe ⟨7, [1, 2]⟩ ∧
    (∀ i, i + 4 ≤ ([5, 5, 5, 5, 5] : List Nat).length →
      le32 (([5, 5, 5, 5, 5] : List Nat).drop i) ≠ PACKET_SIGNATURE) ∧
    (([5, 5, 5, 5, 5] : List Nat).length + (frameBytes ⟨7, [1, 2]⟩).length
        ≤ RX_BUFFER_SIZE) ∧
    ((uart_receive_buf initSt ([5, 5, 5, 5, 5] ++ frameBytes ⟨7, [1, 2]⟩)).st.dispatched
        = [((7 : Nat), ([1, 2] : List Nat))] ∧
      (uart_receive_buf initSt ([5, 5, 5, 5, 5] ++ frameBytes ⟨7, [1, 2]⟩)).st.rx = [] ∧
      (uart_receive_buf initSt ([5, 5, 5, 5, 5] ++ frameBytes ⟨7, [1, 2]⟩)).overflow
        = false) := by
  have hg : ∀ i, i + 4 ≤ ([5, 5, 5, 5, 5] : List Nat).length →
      le32 (([5, 5, 5, 5, 5] : List Nat).drop i) ≠ PACKET_SIGNATURE := by
    intro i hi
    simp only [List.length_cons, List.length_nil] at hi
    have hub : i ≤ 1 := by omega
    interval_cases i <;> decide
  exact ⟨by decide, by decide,
    claim_C2_resync.1 ⟨[9, 9, 9, 9, 9, 9, 9, 9], 0, 0, ring0, []⟩ (by decide) (by decide),
    by decide, hg, by decide,
    claim_C2_resync.2 [5, 5, 5, 5, 5] ⟨7, [1, 2]⟩ (by decide) hg (by decide)⟩

/-- Claim C3: a staging buffer starting with a valid signature but holding
fewer than `8 + length` bytes makes the deframer stop, leaving the buffer
untouched and dispatching nothing; feeding the truncated frame first and the
remaining bytes later (within staging capacity) dispatches the packet
exactly once, with byte-exact payload, and empties the staging buffer. -/
theorem claim_C3_partial_frame :
    (∀ s : St, le32 s.rx = PACKET_SIGNATURE →
      s.rx.length < HEADER_SIZE + le16at s.rx 6 → processLoop s = s) ∧
    (∀ (s : St) (f : Frame) (k : Nat), WFframe f → s.rx = [] → 0 < k →
      k < (frameBytes f).length → (frameBytes f).length ≤ RX_BUFFER_SIZE →
      (uart_receive_buf s ((frameBytes f).take k)).st.rx = (frameBytes f).take k ∧
        (uart_receive_buf s ((frameBytes f).take k)).st.dispatched = s.dispatched ∧
        (uart_receive_buf s ((frameBytes f).take k)).overflow = false ∧
        (uart_receive_buf (uart_receive_buf s ((frameBytes f).take k)).st
            ((frameBytes f).drop k)).st.dispatched
          = s.dispatched ++ [(f.ty, f.payload)] ∧
        (uart_receive_buf (uart_receive_buf s ((frameBytes f).take k)).st
            ((frameBytes f).drop k)).st.rx = [] ∧
        (uart_receive_buf (uart_receive_buf s ((frameBytes f).take k)).st
            ((frameBytes f).drop k)).overflow = false) := by
  constructor
  · intro s hsig hlen
    by_cases h8 : s.rx.length < HEADER_SIZE
    · exact processLoop_stop s h8
    · exact processLoop_wait s (by omega) hsig hlen
  · intro s f k hwf hrx0 hkpos hklt hcap
    have hfb := frameBytes_length f
    have hfeed1 : uart_receive_buf s ((frameBytes f).take k) =
        ⟨{ s with rx := (frameBytes f).take k }, ((frameBytes f).take k).length, false⟩ := by
      have h0 : ¬ ((frameBytes f).take k).length = 0 := by
        rw [List.length_take]
        omega
      have hnov : ¬ RX_BUFFER_SIZE <
          s.rx.length + ((frameBytes f).take k).length := by
        rw [hrx0, List.length_take]
        simp only [List.length_nil, Nat.zero_add]
        omega
      simp only [uart_receive_buf, if_neg h0, if_neg hnov]
      have hplen : k ≤ (streamBytes [f]).length := by
        simp only [streamBytes, List.map_cons, List.map_nil, List.flatten_cons,
          List.flatten_nil, List.append_nil]
        omega
      have hrxa : ({ s with rx := s.rx ++ (frameBytes f).take k } : St).rx
          = (streamBytes [f]).take k := by
        show s.rx ++ (frameBytes f).take k = _
        rw [hrx0, List.nil_append]
        simp only [streamBytes, List.map_cons, List.map_nil, List.flatten_cons,
          List.flatten_nil, List.append_nil]
      rw [processLoop_streamTake [f] k _ (by simpa using hwf) hplen hrxa]
      have hncov : nCovered [f] k = 0 := by
        simp only [nCovered]
        rw [if_neg (by omega)]
      have hleft : leftoverBytes [f] k = (frameBytes f).take k := by
        simp only [leftoverBytes]
        rw [if_neg (by omega)]
      rw [hncov, hleft]
      simp only [List.take_zero, List.foldl_nil]
    have hfeed2 : uart_receive_buf { s with rx := (frameBytes f).take k }
        ((frameBytes f).drop k) =
        ⟨{ dispatchFrame s f with rx := [] }, ((frameBytes f).drop k).length, false⟩ := by
      have h0 : ¬ ((frameBytes f).drop k).length = 0 := by
        rw [List.length_drop]
        omega
      have hnov : ¬ RX_BUFFER_SIZE <
          ({ s with rx := (frameBytes f).take k } : St).rx.length
            + ((frameBytes f).drop k).length := by
        show ¬ RX_BUFFER_SIZE < ((frameBytes f).take k).length + _
        rw [List.length_take, List.length_drop]
        omega
      simp only [uart_receive_buf, if_neg h0, if_neg hnov]
      rw [processLoop_garbage [] _ f hwf (fun i hi => absurd hi (by simp))
        (by
          show (frameBytes f).take k ++ (frameBytes f).drop k = [] ++ frameBytes f
          rw [List.take_append_drop, List.nil_append])]
      rw [dispatchFrame_setRx, dispatchFrame_setRx]
    rw [hfeed1]
    dsimp only
    rw [hfeed2]
    refine ⟨rfl, rfl, rfl, ?_, rfl, rfl⟩
    show (dispatchFrame s f).dispatched = s.dispatched ++ [(f.ty, f.payload)]
    exact dispatchFrame_dispatched s f

/-- Witness for C3: a 9-byte frame `(type 1, payload [5])` split after 4
bytes is dispatched exactly once, after the second feed completes it. -/
theorem claim_C3_partial_frame_witness :
    (le32 (⟨(frameBytes ⟨1, [5]⟩).take 4, 3, 4, ring0, []⟩ : St).rx = PACKET_SIGNATURE →
      (⟨(frameBytes ⟨1, [5]⟩).take 4, 3, 4, ring0, []⟩ : St).rx.length
          < HEADER_SIZE + le16at (⟨(frameBytes ⟨1, [5]⟩).take 4, 3, 4, ring0, []⟩ : St).rx 6 →
      True) ∧
    WFframe ⟨1, [5]⟩ ∧ (initSt.rx = []) ∧ (0 < 4) ∧
    (4 < (frameBytes ⟨1, [5]⟩).length) ∧ ((frameBytes ⟨1, [5]⟩).length ≤ RX_BUFFER_SIZE) ∧
    ((uart_receive_buf initSt ((frameBytes ⟨1, [5]⟩).take 4)).st.rx
        = (frameBytes ⟨1, [5]⟩).take 4 ∧
      (uart_receive_buf initSt ((frameBytes ⟨1, [5]⟩).take 4)).st.dispatched
        = initSt.dispatched ∧
      (uart_receive_buf initSt ((frameBytes ⟨1, [5]⟩).take 4)).overflow = false ∧
      (uart_receive_buf (uart_receive_buf initSt ((frameBytes ⟨1, [5]⟩).take 4)).st
          ((frameBytes ⟨1, [5]⟩).drop 4)).st.dispatched
        = initSt.dispatched ++ [((1 : Nat), ([5] : List Nat))] ∧
      (uart_receive_buf (uart_receive_buf initSt ((frameBytes ⟨1, [5]⟩).take 4)).st
          ((frameBytes ⟨1, [5]⟩).drop 4)).st.rx = [] ∧
      (uart_receive_buf (uart_receive_buf initSt ((frameBytes ⟨1, [5]⟩).take 4)).st
          ((frameBytes ⟨1, [5]⟩).drop 4)).overflow = false) :=
  ⟨fun _ _ => trivial, by decide, rfl, by decide, by decide, by decide,
    claim_C3_partial_frame.2 initSt ⟨1, [5]⟩ 4 (by decide) rfl (by decide)
      (by decide) (by decide)⟩

/-- Witness for the amended C7: a transport error `-5` is forwarded
unchanged, and a short-accepting transport (returns 2 on a 3-byte buffer)
still makes the write return 3. -/
theorem claim_C7_amended_witness :
    (([9] : List Nat) ≠ []) ∧ ((fun _ => (-5 : Int)) ([9] : List Nat) < 0) ∧
    uart_misc_write true true (fun _ => (-5 : Int)) [9] = -5 ∧
    (([9, 9, 9] : List Nat) ≠ []) ∧ ((0 : Int) ≤ (fun _ => (2 : Int)) ([9, 9, 9] : List Nat)) ∧
    uart_misc_write true true (fun _ => (2 : Int)) [9, 9, 9] = 3 :=
  ⟨by decide, by decide,
    (claim_C7_amended (fun _ => (-5 : Int)) [9] (by decide)).1 (by decide),
    by decide, by decide,
    (claim_C7_amended (fun _ => (2 : Int)) [9, 9, 9] (by decide)).2 (by decide)⟩

/-- Claim C9: dispatching a well-formed state-update payload is an
idempotent plain overwrite — a second dispatch of the same frame leaves
`root_state` and `version` at the values the first one set, namely the first
two payload bytes; concretely, payload `{0x01, 0x02}` makes the sysfs reads
show `root_state = 1` and `version = 2`. -/
theorem claim_C9_idempotent_state_update :
    (∀ (s : St) (f : Frame), WFframe f → f.ty = 0x0004 → 2 ≤ f.payload.length →
      s.rx = [] → (frameBytes f).length ≤ RX_BUFFER_SIZE →
      ((uart_receive_buf (uart_receive_buf s (frameBytes f)).st
            (frameBytes f)).st.root_state
          = (uart_receive_buf s (frameBytes f)).st.root_state ∧
        (uart_receive_buf (uart_receive_buf s (frameBytes f)).st
            (frameBytes f)).st.version
          = (uart_receive_buf s (frameBytes f)).st.version ∧
        (uart_receive_buf s (frameBytes f)).st.root_state = f.payload.getD 0 0 ∧
        (uart_receive_buf s (frameBytes f)).st.version = f.payload.getD 1 0)) ∧
    (root_state_show (uart_receive_buf initSt (frameBytes ⟨0x0004, [1, 2]⟩)).st = 1 ∧
      version_show (uart_receive_buf initSt (frameBytes ⟨0x0004, [1, 2]⟩)).st = 2) := by
  constructor
  · intro s f hwf hty hlen hrx0 hcap
    rw [feed_frame_from_empty s f hwf hrx0 hcap]
    dsimp only
    rw [feed_frame_from_empty _ f hwf rfl hcap]
    dsimp only
    refine ⟨?_, ?_, ?_, ?_⟩
    · show (dispatchFrame { dispatchFrame s f with rx := [] } f).root_state
        = (dispatchFrame s f).root_state
      rw [dispatchFrame_root_state _ f hty hlen, dispatchFrame_root_state _ f hty hlen]
    · show (dispatchFrame { dispatchFrame s f with rx := [] } f).version
        = (dispatchFrame s f).version
      rw [dispatchFrame_version _ f hty hlen, dispatchFrame_version _ f hty hlen]
    · exact dispatchFrame_root_state s f hty hlen
    · exact dispatchFrame_version s f hty hlen
  · exact ⟨by decide, by decide⟩

/-- Witness for C9 at payload `[9, 8]` from the initial state. -/
theorem claim_C9_idempotent_state_update_witness :
    WFframe ⟨0x0004, [9, 8]⟩ ∧
    ((uart_receive_buf (uart_receive_buf initSt (frameBytes ⟨0x0004, [9, 8]⟩)).st
          (frameBytes ⟨0x0004, [9, 8]⟩)).st.root_state
        = (uart_receive_buf initSt (frameBytes ⟨0x0004, [9, 8]⟩)).st.root_state ∧
      (uart_receive_buf (uart_receive_buf initSt (frameBytes ⟨0x0004, [9, 8]⟩)).st
          (frameBytes ⟨0x0004, [9, 8]⟩)).st.version
        = (uart_receive_buf initSt (frameBytes ⟨0x0004, [9, 8]⟩)).st.version ∧
      (uart_receive_buf initSt (frameBytes ⟨0x0004, [9, 8]⟩)).st.root_state
        = ([9, 8] : List Nat).getD 0 0 ∧
      (uart_receive_buf initSt (frameBytes ⟨0x0004, [9, 8]⟩)).st.version
        = ([9, 8] : List Nat).getD 1 0) :=
  ⟨by decide,
    claim_C9_idempotent_state_update.1 initSt ⟨0x0004, [9, 8]⟩ (by decide) rfl
      (by decide) rfl (by decide)⟩

/-- Claim C1: for every chunking of a byte stream that concatenates to a
sequence of `N` well-formed frames, a run of `uart_receive_buf` calls that
never takes the overflow path hands the Packet Dispatcher exactly the `N`
`(type, payload)` pairs, in order, with byte-exact payloads. -/
theorem claim_C1_chunked_framing (chunks : List (List Nat)) (F : List Frame)
    (hwf : ∀ f ∈ F, WFframe f)
    (hjoin : chunks.flatten = streamBytes F)
    (hov : (feedAll initSt chunks).2 = false) :
    (feedAll initSt chunks).1.dispatched = F.map (fun f => (f.ty, f.payload)) := by
  have haux := feedAll_aux chunks F initSt hwf
    (by
      show ([] : List Nat) ++ chunks.flatten = streamBytes F
      rw [List.nil_append]
      exact hjoin)
    (fun f' F'' hF => by
      show ([] : List Nat).length < (frameBytes f').length
      rw [frameBytes_length]
      simp only [List.length_nil]
      omega)
    hov
  have h1 := haux.1
  rw [h1]
  show ([] : List (Nat × List Nat)) ++ _ = _
  rw [List.nil_append]

/-- Witness for C1: one frame `(type 1, payload [170])` fed one byte at a
time across nine calls is dispatched exactly once, byte-exact. -/
theorem claim_C1_chunked_framing_witness :
    (∀ f ∈ [Frame.mk 1 [170]], WFframe f) ∧
    ([[13], [240], [173], [11], [1], [0], [1], [0], [170]] : List (List Nat)).flatten
        = streamBytes [Frame.mk 1 [170]] ∧
    (feedAll initSt [[13], [240], [173], [11], [1], [0], [1], [0], [170]]).2 = false ∧
    (feedAll initSt [[13], [240], [173], [11], [1], [0], [1], [0], [170]]).1.dispatched
        = [Frame.mk 1 [170]].map (fun f => (f.ty, f.payload)) :=
  ⟨by decide, by decide, by decide,
    claim_C1_chunked_framing [[13], [240], [173], [11], [1], [0], [1], [0], [170]]
      [Frame.mk 1 [170]] (by decide) (by decide) (by decide)⟩

theorem foldl_enqList_flatten (ops : List (List Nat)) :
    ∀ r, ops.foldl enqList r = enqList r ops.flatten := by
  induction ops with
  | nil => intro r; rfl
  | cons a ops' ih =>
    intro r
    simp only [List.foldl_cons, List.flatten_cons]
    rw [ih (enqList r a)]
    simp [enqList, List.foldl_append]

/-- Claim C4: a sequence of enqueue operations whose total byte count exceeds
the ring capacity retains exactly the newest `BUF_SIZE - 1` bytes — exactly
the oldest bytes are dropped — and dequeuing returns the surviving bytes in
their original relative order. -/
theorem claim_C4_drop_oldest_fifo (ops : List (List Nat))
    (hlen : BUF_SIZE < ops.flatten.length) :
    ringContents (ops.foldl enqList ring0)
        = ops.flatten.drop (ops.flatten.length - (BUF_SIZE - 1)) ∧
    (uart_misc_read true false (ops.foldl enqList ring0) (ops.foldl enqList ring0)
        ops.flatten.length).1
      = .ok (ops.flatten.drop (ops.flatten.length - (BUF_SIZE - 1))) := by
  have hfold : ops.foldl enqList ring0 = enqList ring0 ops.flatten :=
    foldl_enqList_flatten ops ring0
  have hInv0 : RingInv ring0 := ⟨by decide, by decide⟩
  have hc0 : ringContents ring0 = [] := by decide
  have hcontents : ringContents (ops.foldl enqList ring0)
      = ops.flatten.drop (ops.flatten.length - (BUF_SIZE - 1)) := by
    rw [hfold, ringContents_enqList _ _ hInv0, hc0, List.nil_append]
  refine ⟨hcontents, ?_⟩
  have hInv : RingInv (ops.foldl enqList ring0) := by
    rw [hfold]
    exact RingInv_enqList _ _ hInv0
  have hBpos : 1 ≤ BUF_SIZE := by decide
  have hlen2047 : (ringContents (ops.foldl enqList ring0)).length = BUF_SIZE - 1 := by
    rw [hcontents, List.length_drop]
    omega
  have hne : ¬ (ops.foldl enqList ring0).head = (ops.foldl enqList ring0).tail := by
    intro he
    have hemp := (ringContents_empty_iff _ hInv).mp he
    rw [hemp] at hlen2047
    simp only [List.length_nil] at hlen2047
    have hB : BUF_SIZE = 2048 := rfl
    omega
  simp only [uart_misc_read, if_neg hne]
  have hdr := (drain_spec ops.flatten.length _ hInv).1
  rw [hdr, hcontents,
    List.take_of_length_le (by rw [List.length_drop]; omega)]

/-- Witness for C4: enqueuing 2049 bytes in one operation exceeds capacity;
the ring keeps the newest 2047 and a full dequeue returns exactly them. -/
theorem claim_C4_drop_oldest_fifo_witness :
    (BUF_SIZE < ([List.replicate 2049 (3 : Nat)] : List (List Nat)).flatten.length) ∧
    (ringContents ([List.replicate 2049 (3 : Nat)].foldl enqList ring0)
        = [List.replicate 2049 (3 : Nat)].flatten.drop
            ([List.replicate 2049 (3 : Nat)].flatten.length - (BUF_SIZE - 1)) ∧
      (uart_misc_read true false ([List.replicate 2049 (3 : Nat)].foldl enqList ring0)
          ([List.replicate 2049 (3 : Nat)].foldl enqList ring0)
          [List.replicate 2049 (3 : Nat)].flatten.length).1
        = .ok ([List.replicate 2049 (3 : Nat)].flatten.drop
            ([List.replicate 2049 (3 : Nat)].flatten.length - (BUF_SIZE - 1)))) := by
  have hlen : BUF_SIZE < ([List.replicate 2049 (3 : Nat)] : List (List Nat)).flatten.length := by
    rw [List.flatten_cons, List.flatten_nil, List.append_nil, List.length_replicate]
    decide
  exact ⟨hlen, claim_C4_drop_oldest_fifo [List.replicate 2049 (3 : Nat)] hlen⟩

end BheEnclave
